import Mathlib

/-!
Verification of the DICOM header comparison and clustering engine of the
`boyle` package (`boyle/dicom/comparison.py`, with `boyle/dicom/utils.py`).

A loaded DICOM header record is modelled as a total map from field names to
`Option String`: `some s` is the stringified value `str(getattr(record, f))`,
`none` models an `AttributeError` (the field is absent on the record).  The
`Levenshtein.ratio` similarity routine is an external C library and is kept
as an explicit function parameter `simil`.

Python exceptions are modelled with `Except`.  One point of Python semantics
matters below: `LevenshteinDicomFileDistance.transform` iterates over the
dictionary `field_weights` with `for field_name in field_weights` while
popping keys from that same dictionary; in CPython a `dict` iterator compares
the dict's current size with the size recorded when the iterator was created
and raises `RuntimeError («dictionary changed size during iteration»)` at the
next `next()` call after any size change, including the terminating call.
The loop model below performs that size check at the head of every iteration
and once more when the key sequence is exhausted.
-/

namespace Boyle

/-- A loaded DICOM file record: stringified header field values, `none` when
reading the attribute raises `AttributeError` (`boyle/dicom/utils.py`,
`DicomFile`). -/
structure DicomFile where
  fields : String → Option String

instance : Inhabited DicomFile := ⟨⟨fun _ => none⟩⟩

/-- Python `str(getattr(r, f, dflt))`: the stringified attribute with a
default for a missing field. -/
def getattrD (r : DicomFile) (f : String) (dflt : String) : String :=
  (r.fields f).getD dflt

/-- Result of `SimpleDicomFileDistance.transform`: either the boolean
all-fields-equal answer or `np.inf` (returned when one of the two records is
unset). -/
inductive SimpleResult where
  | incomparable
  | result (b : Bool)
deriving DecidableEq

/-- The field scan of `SimpleDicomFileDistance.transform` (comparison.py
lines 143-148): `True` iff every configured field has equal stringified
values on the two records, a missing field standing in as `''`. -/
def simpleFieldsMatch (fieldNames : List String) (r1 r2 : DicomFile) : Bool :=
  fieldNames.all (fun f => getattrD r1 f "" == getattrD r2 f "")

/-- `SimpleDicomFileDistance.transform` (comparison.py lines 132-148): `np.inf`
when either record is unset, otherwise the boolean exact-match answer. -/
def simpleTransform (fieldNames : List String) (d1 d2 : Option DicomFile) : SimpleResult :=
  match d1, d2 with
  | some r1, some r2 => .result (simpleFieldsMatch fieldNames r1 r2)
  | _, _ => .incomparable

/-- Exceptions raised by `LevenshteinDicomFileDistance.transform`:
`ValueError («Field weights should be set.»)` and the CPython
`RuntimeError («dictionary changed size during iteration»)`. -/
inductive TErr where
  | valueError
  | runtimeError
deriving DecidableEq

/-- The `field_weights` dictionary: an insertion-ordered association list of
field name to weight. -/
abbrev Weights := List (String × ℚ)

/-- Python `dict.pop(f, '')` on an association list with unique keys: remove
the binding of `f` if present, no error otherwise. -/
def eraseKey (fw : Weights) (f : String) : Weights :=
  fw.filter (fun kv => !(kv.1 == f))

/-- Lookup `self.field_weights[field_name]` (the unmutated instance
dictionary); the iterated keys always come from that dictionary, so the
default `0` branch is never exercised. -/
def wOf (fw : Weights) (f : String) : ℚ :=
  ((fw.find? (fun kv => kv.1 == f)).map Prod.snd).getD 0

/-- The field loop of `LevenshteinDicomFileDistance.transform` (comparison.py
lines 172-206).  Arguments: the remaining iteration keys, the mutated copy
`field_weights`, and the accumulator `dist`.  `n0` is the dictionary size
recorded when the `for` iterator was created; every `next()` call (the head
of each iteration and the terminating call) first compares the current size
with `n0` and raises `RuntimeError` on mismatch, exactly as the CPython dict
iterator does. -/
def levLoop (simil : String → String → ℚ) (selfFw : Weights) (r1 r2 : DicomFile)
    (n0 : ℕ) : List String → Weights → ℚ → Except TErr ℚ
  | [], fw, dist =>
    if fw.length ≠ n0 then .error .runtimeError
    else if fw.length = 0 then .ok 1
    else .ok dist
  | f :: rest, fw, dist =>
    if fw.length ≠ n0 then .error .runtimeError
    else
      let a1 := r1.fields f
      let fw1 := if a1 = none then eraseKey fw f else fw
      let str1 := a1.getD ""
      let a2 := r2.fields f
      let fw2 := if a2 = none then eraseKey fw1 f else fw1
      let str2 := a2.getD ""
      if str1 = "" ∨ str2 = "" then
        levLoop simil selfFw r1 r2 n0 rest fw2 dist
      else
        let sumWeights := (fw2.map Prod.snd).sum
        if sumWeights = 0 then .ok 1
        else
          let s := if str1 = str2 then 1 else simil str1 str2
          if 0 < s then
            levLoop simil selfFw r1 r2 n0 rest fw2
              (dist + (1 - s) * (wOf selfFw f / sumWeights))
          else
            levLoop simil selfFw r1 r2 n0 rest fw2 dist

/-- `LevenshteinDicomFileDistance.transform` on two loaded records
(comparison.py lines 162-206, after the `None` test): `ValueError` on an
empty weight mapping, then the field loop over a copy of the weights. -/
def levTransformLoaded (simil : String → String → ℚ) (selfFw : Weights)
    (r1 r2 : DicomFile) : Except TErr ℚ :=
  if selfFw.length = 0 then .error .valueError
  else levLoop simil selfFw r1 r2 selfFw.length (selfFw.map Prod.fst) selfFw 0

/-- Result of `LevenshteinDicomFileDistance.transform`: `np.inf`
(incomparable) or a rational distance. -/
inductive LevResult where
  | incomparable
  | val (d : ℚ)
deriving DecidableEq

/-- `LevenshteinDicomFileDistance.transform` (comparison.py lines 162-206):
`np.inf` when either record is unset, otherwise the loaded-record
computation. -/
def levTransform (simil : String → String → ℚ) (selfFw : Weights)
    (d1 d2 : Option DicomFile) : Except TErr LevResult :=
  match d1, d2 with
  | some r1, some r2 => (levTransformLoaded simil selfFw r1 r2).map LevResult.val
  | _, _ => .ok .incomparable

/-- One pass of the inner `while j >= 0` scan of `group_dicom_files`
(comparison.py lines 239-248): walk the pool from its last element down,
moving every element matching the seed into the subgroup (in the order the
scan appends them) and keeping the others.  Returns (remaining pool,
appended matches). -/
def scanPool {P : Type} (m : P → Bool) (pool : List P) : List P × List P :=
  pool.foldr (fun x acc => if m x then (acc.1, acc.2 ++ [x]) else (x :: acc.1, acc.2))
    ([], [])

theorem scanPool_eq {P : Type} (m : P → Bool) (pool : List P) :
    scanPool m pool = (pool.filter (fun x => !m x), (pool.filter m).reverse) := by
  induction pool with
  | nil => rfl
  | cons x xs ih =>
    show (if m x then ((scanPool m xs).1, (scanPool m xs).2 ++ [x])
        else (x :: (scanPool m xs).1, (scanPool m xs).2)) = _
    rw [ih]
    by_cases hx : m x <;> simp [hx, List.filter_cons]

theorem scanPool_fst_length {P : Type} (m : P → Bool) (pool : List P) :
    (scanPool m pool).1.length ≤ pool.length := by
  rw [scanPool_eq]
  simpa using List.length_filter_le _ pool

/-- The outer `while len(path_list) > 0` loop of `group_dicom_files`
(comparison.py lines 234-249): pop the last element of the pool as the seed
of a new group, move every matching element of the rest of the pool into
that group, recurse on what is left.  Groups are recorded in insertion
order, keyed by their seed. -/
def groupFilesLoop {P : Type} [DecidableEq P] (m : P → P → Bool) (pl : List P) :
    List (P × List P) :=
  if h : pl = [] then []
  else
    let seed := pl.getLast h
    let sc := scanPool (m seed) pl.dropLast
    (seed, seed :: sc.2) :: groupFilesLoop m sc.1
termination_by pl.length
decreasing_by
  have h1 : 0 < pl.length := List.length_pos.mpr h
  have h2 := scanPool_fst_length (m (pl.getLast h)) pl.dropLast
  simp only [List.length_dropLast] at h2
  omega

/-- `group_dicom_files` (comparison.py lines 209-251): the greedy grouping of
file paths by exact equality of the configured header fields, over a record
reader `recs`.  The match test is `SimpleDicomFileDistance.transform` with
both records loaded, whose truthiness is `simpleFieldsMatch`. -/
def group_dicom_files {P : Type} [DecidableEq P] (recs : P → DicomFile) (header_fields : List String)
    (paths : List P) : List (P × List P) :=
  groupFilesLoop (fun p q => simpleFieldsMatch header_fields (recs p) (recs q)) paths

/-- Indices of `np.triu_indices(n, k)`: the pairs `(i, j)` with
`j - i ≥ k`, in row-major order. -/
def triuPairs (n : ℕ) (k : ℤ) : List (ℕ × ℕ) :=
  (List.range n).flatMap
    (fun i => ((List.range n).filter (fun j : ℕ => decide (k ≤ (j : ℤ) - (i : ℤ)))).map
      (fun j => (i, j)))

/-- The matrix entries selected by `dist_matrix[triu_idx]`. -/
def triuEntries (n : ℕ) (k : ℤ) (M : ℕ → ℕ → ℚ) : List ℚ :=
  (triuPairs n k).map (fun ij => M ij.1 ij.2)

/-- Ascending sort, as `np.percentile` sorts its input. -/
def sortedAsc (xs : List ℚ) : List ℚ :=
  xs.mergeSort (fun a b => decide (a ≤ b))

/-- Linear-interpolation percentile of a nonempty sorted list, as
`np.percentile(a, p)` computes it: with `h = (len - 1) * p / 100`,
interpolate between the values at positions `⌊h⌋` and `⌊h⌋ + 1`. -/
def percentileOfSorted (s : List ℚ) (p : ℚ) : ℚ :=
  let h : ℚ := ((s.length : ℚ) - 1) * (p / 100)
  let i : ℕ := (⌊h⌋).toNat
  let lo := s.getD i 0
  let hi := s.getD (i + 1) lo
  lo + (h - ((⌊h⌋ : ℤ) : ℚ)) * (hi - lo)

/-- `np.percentile(xs, p)`: raises `IndexError` («cannot do a non-empty take
from an empty axes») on an empty selection, otherwise the interpolated
percentile. -/
def np_percentile (xs : List ℚ) (p : ℚ) : Except Unit ℚ :=
  if xs.isEmpty then .error () else .ok (percentileOfSorted (sortedAsc xs) p)

/-- `DicomFilesClustering.dist_percentile_threshold` (comparison.py lines
436-462): compute the `perc_thr` percentile of the upper-triangle entries at
diagonal offset `k` (defaults in the source: `perc_thr=0.05`, `k=1`), then
return the same-shaped matrix holding 1 at the considered positions whose
distance is strictly below that percentile and 0 everywhere else.  The
`np.percentile` call is the only failing step. -/
def dist_percentile_threshold (n : ℕ) (M : ℕ → ℕ → ℚ) (perc_thr : ℚ) (k : ℤ) :
    Except Unit (ℕ → ℕ → ℚ) :=
  match np_percentile (triuEntries n k M) perc_thr with
  | .error e => .error e
  | .ok t => .ok (fun i j =>
      if i < n ∧ j < n ∧ k ≤ (j : ℤ) - (i : ℤ) ∧ M i j < t then 1 else 0)

/-- All index pairs of an `n × n` matrix. -/
def allPairs (n : ℕ) : List (ℕ × ℕ) :=
  (List.range n).flatMap (fun i => (List.range n).map (fun j => (i, j)))

/-- Number of entries equal to 1 in an `n × n` matrix. -/
def onesCount (n : ℕ) (T : ℕ → ℕ → ℚ) : ℕ :=
  (allPairs n).countP (fun ij => decide (T ij.1 ij.2 = 1))

/-- Functional update of one cell of a matrix. -/
def updMat (M : ℕ → ℕ → ℚ) (i j : ℕ) (v : ℚ) : ℕ → ℕ → ℚ :=
  fun a b => if a = i ∧ b = j then v else M a b

/-- `calculate_file_distances` (comparison.py lines 299-357): starting from a
zero `n × n` matrix, fill each strict upper-triangle cell `(i, j)`, `i < j`,
with the Levenshtein transform of the two loaded records; any exception of
the transform propagates.  The reduced `float16` storage precision of the
source is not modelled; values are kept exact. -/
def calculate_file_distances (simil : String → String → ℚ) (fw : Weights)
    (files : List DicomFile) : Except TErr (ℕ → ℕ → ℚ) :=
  let n := files.length
  (List.range n).foldlM (fun M i =>
    ((List.range n).drop (i + 1)).foldlM (fun M2 j =>
      if i ≠ j then
        match levTransformLoaded simil fw (files.getD i default) (files.getD j default) with
        | .error e => .error e
        | .ok d => .ok (updMat M2 i j d)
      else .ok M2) M)
    (fun _ _ => 0)

/-- Replace the element at position `i` of a list, identity when out of
range (helper for the merge model). -/
def modifyIdx {A : Type} (f : A → A) : ℕ → List A → List A
  | _, [] => []
  | 0, x :: xs => f x :: xs
  | n + 1, x :: xs => x :: modifyIdx f n xs

/-- Modelled from the spec: `merge_dict_of_lists` from `boyle.more_collections`
(the module is not part of the provided source tree; only its caller
`DicomFilesClustering.merge_groups` is).  Per spec section 4.4: given two
equal-length sequences of integer indices into the current ordered list of
group keys, for each pair `(t, s)` append all members of the source group `s`
to the target group `t` (preserving source member order); with `pop_later`
the source groups are removed after all pairs are processed; an index outside
the valid range `[0, len)` raises `IndexError`. -/
def merge_dict_of_lists {K V : Type} [DecidableEq K] (g : List (K × List V))
    (targets sources : List ℕ) : Except Unit (List (K × List V)) :=
  if (targets ++ sources).all (fun i => i < g.length) then
    let merged := (targets.zip sources).foldl
      (fun acc ts =>
        let srcList := match acc[ts.2]? with
          | some kv => kv.2
          | none => []
        modifyIdx (fun kv => (kv.1, kv.2 ++ srcList)) ts.1 acc) g
    .ok ((List.range merged.length).filterMap
      (fun i => if i ∈ sources then none else merged[i]?))
  else .error ()

/-- `DicomFilesClustering.merge_groups` (comparison.py lines 521-540): run
`merge_dict_of_lists` on the group dictionary and replace any `IndexError`
with a new `IndexError` carrying the fixed message
«Index out of range to merge DICOM groups.». -/
def merge_groups {K V : Type} [DecidableEq K] (g : List (K × List V))
    (targets sources : List ℕ) : Except String (List (K × List V)) :=
  match merge_dict_of_lists g targets sources with
  | .ok m => .ok m
  | .error _ => .error "Index out of range to merge DICOM groups."

/-- `DicomFile.get_attributes` for a single attribute name
(`boyle/dicom/utils.py` lines 63-86): `getattr(self, attr, default)` — the
attribute's value, or the default when the attribute is absent.  It never
raises for a missing field. -/
def get_attributes (r : DicomFile) (attr : String) (dflt : String) : String :=
  (r.fields attr).getD dflt

/-- One `unique_vals[key_val].add(field_val)` step on the insertion-ordered
dictionary of value sets (`DefaultOrderedDict(set)`); a set is modelled as a
duplicate-free list in insertion order. -/
def addToGroupVal (acc : List (String × List String)) (key v : String) :
    List (String × List String) :=
  if acc.any (fun kv => kv.1 == key) then
    acc.map (fun kv => if kv.1 = key then (kv.1, if v ∈ kv.2 then kv.2 else kv.2 ++ [v]) else kv)
  else acc ++ [(key, [v])]

/-- `DicomFilesClustering.get_unique_field_values_per_group` (comparison.py
lines 560-593) over a record reader `recs`: for every member of every group
read `field_name` and add it to the value set keyed either by the group key
path or, when `field_to_use_as_key` is given, by that field's value read
from the group representative.  Since `get_attributes` returns the default
`''` for a missing attribute, the `except KeyError` branch of the source is
unreachable and the computation is total. -/
def get_unique_field_values_per_group (recs : String → DicomFile)
    (groups : List (String × List String)) (field_name : String)
    (field_to_use_as_key : Option String) : List (String × List String) :=
  groups.foldl (fun acc g =>
    g.2.foldl (fun acc2 f =>
      let field_val := get_attributes (recs f) field_name ""
      let key_val := match field_to_use_as_key with
        | none => g.1
        | some kf => get_attributes (recs g.1) kf ""
      addToGroupVal acc2 key_val field_val) acc) []

/-- Weight table with unit weights on fields A and B. -/
def c2fw : Weights := [("A", 1), ("B", 1)]

/-- Weight table with weights 1 on A and 2 on B. -/
def c3fw : Weights := [("A", 1), ("B", 2)]

/-- Weight table with a single zero weight on A. -/
def c4fw : Weights := [("A", 0)]

/-- Record lacking field A, with B = b1. -/
def c2rec1 : DicomFile := ⟨fun f => if f = "B" then some "b1" else none⟩

/-- Record with A = a2 and B = b2. -/
def c2rec2 : DicomFile :=
  ⟨fun f => if f = "A" then some "a2" else if f = "B" then some "b2" else none⟩

/-- Record whose field A reads as the empty string. -/
def c4rec : DicomFile := ⟨fun f => if f = "A" then some "" else none⟩

/-- Record whose field A reads as the nonempty string x. -/
def c4brec : DicomFile := ⟨fun f => if f = "A" then some "x" else none⟩

/-- Record with PatientID = x. -/
def c5rec1 : DicomFile := ⟨fun f => if f = "PatientID" then some "x" else none⟩

/-- Record with PatientID = y. -/
def c5rec2 : DicomFile := ⟨fun f => if f = "PatientID" then some "y" else none⟩

/-- Record with field F = v and no other field (in particular no KF). -/
def c9rec : DicomFile := ⟨fun f => if f = "F" then some "v" else none⟩

/-- Record with A empty and B = bb. -/
def c10rec1 : DicomFile :=
  ⟨fun f => if f = "A" then some "" else if f = "B" then some "bb" else none⟩

/-- Record with A = aa and B empty. -/
def c10rec2 : DicomFile :=
  ⟨fun f => if f = "A" then some "aa" else if f = "B" then some "" else none⟩

/-- A record reader mapping each path to a record whose PatientID is the
path itself. -/
def cRecs : String → DicomFile :=
  fun p => ⟨fun f => if f = "PatientID" then some p else none⟩
theorem levLoop_nil (simil : String → String → ℚ) (selfFw : Weights) (r1 r2 : DicomFile)
    (n0 : ℕ) (fw : Weights) (dist : ℚ) :
    levLoop simil selfFw r1 r2 n0 [] fw dist =
      if fw.length ≠ n0 then .error .runtimeError
      else if fw.length = 0 then .ok 1 else .ok dist := rfl

theorem levLoop_cons_readable (simil : String → String → ℚ) (selfFw : Weights)
    (r1 r2 : DicomFile) (n0 : ℕ) (f : String) (rest : List String) (fw : Weights)
    (dist : ℚ) (s1 s2 : String) (h1 : r1.fields f = some s1) (h2 : r2.fields f = some s2)
    (hlen : fw.length = n0) :
    levLoop simil selfFw r1 r2 n0 (f :: rest) fw dist =
      if s1 = "" ∨ s2 = "" then levLoop simil selfFw r1 r2 n0 rest fw dist
      else if (fw.map Prod.snd).sum = 0 then .ok 1
      else if 0 < (if s1 = s2 then 1 else simil s1 s2) then
        levLoop simil selfFw r1 r2 n0 rest fw
          (dist + (1 - (if s1 = s2 then 1 else simil s1 s2)) *
            (wOf selfFw f / (fw.map Prod.snd).sum))
      else levLoop simil selfFw r1 r2 n0 rest fw dist := by
  simp only [levLoop, h1, h2, hlen]
  simp only [ne_eq, not_true_eq_false, if_false, reduceCtorEq, Option.getD_some]



theorem wOf_nonneg (fw : Weights) (hw : ∀ kv ∈ fw, 0 ≤ kv.2) (f : String) :
    0 ≤ wOf fw f := by
  unfold wOf
  cases hfind : fw.find? (fun kv => kv.1 == f) with
  | none => simp
  | some kv =>
    simp only [Option.map_some', Option.getD_some]
    exact hw kv (List.mem_of_find?_eq_some hfind)

theorem div_mono_num (a b W : ℚ) (h : a ≤ b) (hW : 0 ≤ W) : a / W ≤ b / W := by
  rw [div_eq_mul_inv, div_eq_mul_inv]
  exact mul_le_mul_of_nonneg_right h (inv_nonneg.mpr hW)

theorem wOf_keys_sum (fw : Weights) (hnd : (fw.map Prod.fst).Nodup) :
    ((fw.map Prod.fst).map (wOf fw)).sum = (fw.map Prod.snd).sum := by
  induction fw with
  | nil => rfl
  | cons kv rest ih =>
    simp only [List.map_cons, List.nodup_cons, List.mem_map] at hnd
    obtain ⟨hnotin, hnd'⟩ := hnd
    have hhead : wOf (kv :: rest) kv.1 = kv.2 := by
      unfold wOf
      rw [List.find?_cons_of_pos _ (by simp)]
      rfl
    have htail : (rest.map Prod.fst).map (wOf (kv :: rest)) =
        (rest.map Prod.fst).map (wOf rest) := by
      apply List.map_congr_left
      intro f hf
      obtain ⟨kv', hkv', hfst⟩ := List.mem_map.mp hf
      unfold wOf
      rw [List.find?_cons_of_neg]
      simp only [beq_iff_eq]
      intro hkf
      exact hnotin ⟨kv', hkv', hfst.trans hkf.symm⟩
    simp only [List.map_cons, List.sum_cons, hhead, htail, ih hnd']

theorem levLoop_readable_bounds (simil : String → String → ℚ) (selfFw : Weights)
    (r1 r2 : DicomFile)
    (hw : ∀ kv ∈ selfFw, 0 ≤ kv.2)
    (hsim : ∀ a b, 0 ≤ simil a b ∧ simil a b ≤ 1) :
    ∀ (fields : List String) (dist : ℚ),
      (∀ f ∈ fields, r1.fields f ≠ none ∧ r2.fields f ≠ none) →
      0 ≤ dist →
      ∃ d, levLoop simil selfFw r1 r2 selfFw.length fields selfFw dist = .ok d ∧
        0 ≤ d ∧
        d ≤ max 1 (dist + ((fields.map (wOf selfFw)).sum) / (selfFw.map Prod.snd).sum) := by
  have hW : (0 : ℚ) ≤ (selfFw.map Prod.snd).sum :=
    List.sum_nonneg (by
      intro x hx
      obtain ⟨kv, hkv, hxe⟩ := List.mem_map.mp hx
      exact hxe ▸ hw kv hkv)
  intro fields
  induction fields with
  | nil =>
    intro dist hr h0
    rw [levLoop_nil]
    simp only [ne_eq, not_true_eq_false, if_false]
    by_cases hz : selfFw.length = 0
    · exact ⟨1, by simp [hz], by norm_num, le_max_left _ _⟩
    · refine ⟨dist, by simp [hz], h0, le_max_of_le_right ?_⟩
      have : (0:ℚ) ≤ (([] : List String).map (wOf selfFw)).sum / (selfFw.map Prod.snd).sum := by
        simp
      linarith
  | cons f rest ih =>
    intro dist hr h0
    obtain ⟨hne1, hne2⟩ := hr f (List.mem_cons_self f rest)
    obtain ⟨s1, h1⟩ := Option.ne_none_iff_exists'.mp hne1
    obtain ⟨s2, h2⟩ := Option.ne_none_iff_exists'.mp hne2
    have hwrest : (0:ℚ) ≤ (rest.map (wOf selfFw)).sum :=
      List.sum_nonneg (by
        intro x hx
        obtain ⟨g, hg, hxe⟩ := List.mem_map.mp hx
        exact hxe ▸ wOf_nonneg selfFw hw g)
    have hwf : (0:ℚ) ≤ wOf selfFw f := wOf_nonneg selfFw hw f
    have hsum_cons : ((f :: rest).map (wOf selfFw)).sum =
        wOf selfFw f + (rest.map (wOf selfFw)).sum := by
      simp
    rw [levLoop_cons_readable simil selfFw r1 r2 _ f rest selfFw dist s1 s2 h1 h2 rfl]
    by_cases hsk : s1 = "" ∨ s2 = ""
    · rw [if_pos hsk]
      obtain ⟨d, hd, h0d, hub⟩ := ih dist (fun g hg => hr g (List.mem_cons_of_mem f hg)) h0
      refine ⟨d, hd, h0d, le_trans hub (max_le_max le_rfl ?_)⟩
      rw [hsum_cons]
      exact add_le_add_left (div_mono_num _ _ _ (le_add_of_nonneg_left hwf) hW) dist
    · rw [if_neg hsk]
      by_cases hz : (selfFw.map Prod.snd).sum = 0
      · rw [if_pos hz]
        exact ⟨1, rfl, by norm_num, le_max_left _ _⟩
      · rw [if_neg hz]
        set sval := (if s1 = s2 then 1 else simil s1 s2) with hsval
        have hs0 : 0 ≤ sval := by
          rw [hsval]
          split
          · norm_num
          · exact (hsim s1 s2).1
        have hs1 : sval ≤ 1 := by
          rw [hsval]
          split
          · norm_num
          · exact (hsim s1 s2).2
        by_cases hpos : 0 < sval
        · rw [if_pos hpos]
          have hq : (0:ℚ) ≤ wOf selfFw f / (selfFw.map Prod.snd).sum :=
            div_nonneg hwf hW
          have h0' : 0 ≤ dist + (1 - sval) * (wOf selfFw f / (selfFw.map Prod.snd).sum) := by
            have := mul_nonneg (by linarith : (0:ℚ) ≤ 1 - sval) hq
            linarith
          obtain ⟨d, hd, h0d, hub⟩ :=
            ih (dist + (1 - sval) * (wOf selfFw f / (selfFw.map Prod.snd).sum))
              (fun g hg => hr g (List.mem_cons_of_mem f hg)) h0'
          refine ⟨d, hd, h0d, le_trans hub (max_le_max le_rfl ?_)⟩
          rw [hsum_cons, add_div]
          have hterm : (1 - sval) * (wOf selfFw f / (selfFw.map Prod.snd).sum) ≤
              wOf selfFw f / (selfFw.map Prod.snd).sum :=
            mul_le_of_le_one_left hq (by linarith)
          linarith
        · rw [if_neg hpos]
          obtain ⟨d, hd, h0d, hub⟩ := ih dist (fun g hg => hr g (List.mem_cons_of_mem f hg)) h0
          refine ⟨d, hd, h0d, le_trans hub (max_le_max le_rfl ?_)⟩
          rw [hsum_cons]
          exact add_le_add_left (div_mono_num _ _ _ (le_add_of_nonneg_left hwf) hW) dist



/-- C3 (corrected): bounds of the weighted edit-distance.  For a non-empty
weight mapping with distinct field names and non-negative weights, and a
similarity measure with range [0, 1], whenever every configured field is
readable on both loaded records the transform returns a value d with
0 <= d <= 1.  (The claim's original scope, «at least one usable field», is
narrowed to «every field readable»: an unreadable field makes the transform
raise RuntimeError instead of returning a value, see the counterexample.) -/
theorem levTransform_bounds (simil : String → String → ℚ) (selfFw : Weights)
    (r1 r2 : DicomFile)
    (hne : selfFw ≠ [])
    (hnd : (selfFw.map Prod.fst).Nodup)
    (hw : ∀ kv ∈ selfFw, 0 ≤ kv.2)
    (hsim : ∀ a b, 0 ≤ simil a b ∧ simil a b ≤ 1)
    (hr : ∀ f ∈ selfFw.map Prod.fst, r1.fields f ≠ none ∧ r2.fields f ≠ none) :
    ∃ d, levTransform simil selfFw (some r1) (some r2) = .ok (.val d) ∧
      0 ≤ d ∧ d ≤ 1 := by
  have hlen : ¬ selfFw.length = 0 := by
    simpa using (List.length_pos.mpr hne).ne'
  obtain ⟨d, hd, h0d, hub⟩ :=
    levLoop_readable_bounds simil selfFw r1 r2 hw hsim (selfFw.map Prod.fst) 0 hr le_rfl
  refine ⟨d, ?_, h0d, ?_⟩
  · simp only [levTransform, levTransformLoaded, hlen, if_false, hd]
    rfl
  · rw [wOf_keys_sum selfFw hnd, zero_add] at hub
    by_cases hz : (selfFw.map Prod.snd).sum = 0
    · rw [hz] at hub
      simpa using hub
    · rw [div_self hz] at hub
      simpa using hub

theorem levLoop_zero_sum (simil : String → String → ℚ) (selfFw : Weights)
    (r1 r2 : DicomFile) (hW : (selfFw.map Prod.snd).sum = 0) :
    ∀ (fields : List String) (dist : ℚ),
      (∀ f ∈ fields, r1.fields f ≠ none ∧ r2.fields f ≠ none) →
      (∃ f ∈ fields, (r1.fields f).getD "" ≠ "" ∧ (r2.fields f).getD "" ≠ "") →
      levLoop simil selfFw r1 r2 selfFw.length fields selfFw dist = .ok 1 := by
  intro fields
  induction fields with
  | nil =>
    rintro dist _ ⟨f, hf, _⟩
    cases hf
  | cons f rest ih =>
    rintro dist hr hex
    obtain ⟨hne1, hne2⟩ := hr f (List.mem_cons_self f rest)
    obtain ⟨s1, h1⟩ := Option.ne_none_iff_exists'.mp hne1
    obtain ⟨s2, h2⟩ := Option.ne_none_iff_exists'.mp hne2
    rw [levLoop_cons_readable simil selfFw r1 r2 _ f rest selfFw dist s1 s2 h1 h2 rfl]
    by_cases hsk : s1 = "" ∨ s2 = ""
    · rw [if_pos hsk]
      apply ih dist (fun g hg => hr g (List.mem_cons_of_mem f hg))
      obtain ⟨g, hg, hg1, hg2⟩ := hex
      rcases List.mem_cons.mp hg with rfl | hgrest
      · rw [h1] at hg1
        rw [h2] at hg2
        simp only [Option.getD_some] at hg1 hg2
        rcases hsk with hsk | hsk
        · exact absurd hsk hg1
        · exact absurd hsk hg2
      · exact ⟨g, hgrest, hg1, hg2⟩
    · rw [if_neg hsk, if_pos hW]

/-- C4 (corrected): the zero-denominator rule, as the code actually applies
it.  The transform returns exactly 1 when the `sum_weights == 0` check is
reached, i.e. when some configured field with nonempty stringified values on
both records is processed while the remaining weight sum is zero; here the
sufficient precondition is: all fields readable, total weight sum zero, and
some field nonempty on both sides.  (The all-fields-dropped branch at the
end of the loop is unreachable — a drop raises RuntimeError at the next
iteration — and when every field is skipped over an empty value the check is
never reached and 0 is returned, see the counterexample.) -/
theorem levTransform_zero_weight_sum (simil : String → String → ℚ) (selfFw : Weights)
    (r1 r2 : DicomFile)
    (hne : selfFw ≠ [])
    (hW : (selfFw.map Prod.snd).sum = 0)
    (hr : ∀ f ∈ selfFw.map Prod.fst, r1.fields f ≠ none ∧ r2.fields f ≠ none)
    (hex : ∃ f ∈ selfFw.map Prod.fst,
      (r1.fields f).getD "" ≠ "" ∧ (r2.fields f).getD "" ≠ "") :
    levTransform simil selfFw (some r1) (some r2) = .ok (.val 1) := by
  have hlen : ¬ selfFw.length = 0 := by
    simpa using (List.length_pos.mpr hne).ne'
  have := levLoop_zero_sum simil selfFw r1 r2 hW (selfFw.map Prod.fst) 0 hr hex
  simp only [levTransform, levTransformLoaded, hlen, if_false, this]
  rfl

theorem levLoop_all_empty (simil : String → String → ℚ) (selfFw : Weights)
    (r1 r2 : DicomFile) :
    ∀ (fields : List String) (dist : ℚ),
      (∀ f ∈ fields, ∃ s1 s2, r1.fields f = some s1 ∧ r2.fields f = some s2 ∧
        (s1 = "" ∨ s2 = "")) →
      levLoop simil selfFw r1 r2 selfFw.length fields selfFw dist =
        if selfFw.length = 0 then .ok 1 else .ok dist := by
  intro fields
  induction fields with
  | nil =>
    intro dist _
    rw [levLoop_nil]
    simp
  | cons f rest ih =>
    intro dist hall
    obtain ⟨s1, s2, h1, h2, hsk⟩ := hall f (List.mem_cons_self f rest)
    rw [levLoop_cons_readable simil selfFw r1 r2 _ f rest selfFw dist s1 s2 h1 h2 rfl]
    rw [if_pos hsk]
    exact ih dist (fun g hg => hall g (List.mem_cons_of_mem f hg))

/-- C10 (confirmed): if for each configured field the stringified value on
at least one of the two records is the empty string (the field being present
on both), the weighted edit-distance returns 0, even when the records'
non-empty values differ on every field; no weight is removed from the
mapping, so the all-dropped branch returning 1 is not taken. -/
theorem levTransform_all_empty_values (simil : String → String → ℚ) (selfFw : Weights)
    (r1 r2 : DicomFile)
    (hne : selfFw ≠ [])
    (hall : ∀ f ∈ selfFw.map Prod.fst, ∃ s1 s2, r1.fields f = some s1 ∧
      r2.fields f = some s2 ∧ (s1 = "" ∨ s2 = "")) :
    levTransform simil selfFw (some r1) (some r2) = .ok (.val 0) := by
  have hlen : ¬ selfFw.length = 0 := by
    simpa using (List.length_pos.mpr hne).ne'
  have := levLoop_all_empty simil selfFw r1 r2 (selfFw.map Prod.fst) 0 hall
  rw [if_neg hlen] at this
  simp only [levTransform, levTransformLoaded, hlen, if_false, this]
  rfl

theorem groupFilesLoop_nil {P : Type} [DecidableEq P] (m : P → P → Bool) :
    groupFilesLoop m ([] : List P) = [] := by
  rw [groupFilesLoop]
  rfl

theorem groupFilesLoop_ne {P : Type} [DecidableEq P] (m : P → P → Bool) (pl : List P)
    (h : pl ≠ []) :
    groupFilesLoop m pl =
      (pl.getLast h, pl.getLast h :: (scanPool (m (pl.getLast h)) pl.dropLast).2) ::
        groupFilesLoop m (scanPool (m (pl.getLast h)) pl.dropLast).1 := by
  rw [groupFilesLoop]
  simp [h]

theorem groupFilesLoop_perm {P : Type} [DecidableEq P] (m : P → P → Bool) :
    ∀ (n : ℕ) (pl : List P), pl.length ≤ n →
      ((groupFilesLoop m pl).flatMap Prod.snd).Perm pl := by
  intro n
  induction n with
  | zero =>
    intro pl h
    have hpl : pl = [] := List.eq_nil_of_length_eq_zero (Nat.le_zero.mp h)
    subst hpl
    simp [groupFilesLoop_nil]
  | succ k ih =>
    intro pl h
    by_cases hpl : pl = []
    · subst hpl
      simp [groupFilesLoop_nil]
    · rw [groupFilesLoop_ne m pl hpl, List.flatMap_cons]
      have hsc1 : (scanPool (m (pl.getLast hpl)) pl.dropLast).1 =
          pl.dropLast.filter (fun x => !(m (pl.getLast hpl)) x) := by
        rw [scanPool_eq]
      have hsc2 : (scanPool (m (pl.getLast hpl)) pl.dropLast).2 =
          (pl.dropLast.filter (m (pl.getLast hpl))).reverse := by
        rw [scanPool_eq]
      have hlen : (scanPool (m (pl.getLast hpl)) pl.dropLast).1.length ≤ k := by
        have h2 := scanPool_fst_length (m (pl.getLast hpl)) pl.dropLast
        have h3 : pl.dropLast.length = pl.length - 1 := List.length_dropLast pl
        have h4 : 0 < pl.length := List.length_pos.mpr hpl
        omega
      have hrec := ih _ hlen
      have hsplit : ((scanPool (m (pl.getLast hpl)) pl.dropLast).2 ++
          (scanPool (m (pl.getLast hpl)) pl.dropLast).1).Perm pl.dropLast := by
        rw [hsc1, hsc2]
        exact (List.Perm.append_right _ (List.reverse_perm _)).trans
          (List.filter_append_perm _ _)
      have step1 : ((pl.getLast hpl :: (scanPool (m (pl.getLast hpl)) pl.dropLast).2) ++
          (groupFilesLoop m (scanPool (m (pl.getLast hpl)) pl.dropLast).1).flatMap
            Prod.snd).Perm
          ((pl.getLast hpl :: (scanPool (m (pl.getLast hpl)) pl.dropLast).2) ++
            (scanPool (m (pl.getLast hpl)) pl.dropLast).1) :=
        List.Perm.append_left _ hrec
      have step2 : ((pl.getLast hpl :: (scanPool (m (pl.getLast hpl)) pl.dropLast).2) ++
          (scanPool (m (pl.getLast hpl)) pl.dropLast).1).Perm
          (pl.getLast hpl :: pl.dropLast) :=
        List.Perm.cons _ hsplit
      have step3 : (pl.getLast hpl :: pl.dropLast).Perm pl := by
        have hsing := List.perm_append_singleton (pl.getLast hpl) pl.dropLast
        rw [List.dropLast_append_getLast hpl] at hsing
        exact hsing.symm
      exact step1.trans (step2.trans step3)

theorem countP_zero_of_flatMap {P : Type} [DecidableEq P] (x : P) :
    ∀ gs : List (P × List P), (gs.flatMap Prod.snd).count x = 0 →
      gs.countP (fun g => decide (x ∈ g.2)) = 0 := by
  intro gs
  induction gs with
  | nil => intro _; rfl
  | cons g rest ih =>
    intro h
    rw [List.flatMap_cons, List.count_append] at h
    have h1 : List.count x g.2 = 0 := by omega
    have h2 : (rest.flatMap Prod.snd).count x = 0 := by omega
    rw [List.countP_cons, ih h2]
    have hmem : x ∉ g.2 := List.count_eq_zero.mp h1
    simp [hmem]

theorem countP_one_of_flatMap {P : Type} [DecidableEq P] (x : P) :
    ∀ gs : List (P × List P), (gs.flatMap Prod.snd).count x = 1 →
      gs.countP (fun g => decide (x ∈ g.2)) = 1 := by
  intro gs
  induction gs with
  | nil => intro h; cases h
  | cons g rest ih =>
    intro h
    rw [List.flatMap_cons, List.count_append] at h
    rw [List.countP_cons]
    by_cases hmem : x ∈ g.2
    · have h1 : 0 < List.count x g.2 := List.count_pos_iff.mpr hmem
      have h2 : (rest.flatMap Prod.snd).count x = 0 := by omega
      rw [countP_zero_of_flatMap x rest h2]
      simp [hmem]
    · have h1 : List.count x g.2 = 0 := List.count_eq_zero.mpr hmem
      have h2 : (rest.flatMap Prod.snd).count x = 1 := by omega
      rw [ih h2]
      simp [hmem]

/-- C1 (confirmed): partition invariant of `group_dicom_files`.  For every
input list of distinct file paths and every field set, the concatenation of
all group member lists is a permutation of the input, and every input path
belongs to exactly one group: no duplicates, no omissions. -/
theorem group_dicom_files_partition {P : Type} [DecidableEq P] (recs : P → DicomFile)
    (header_fields : List String) (paths : List P) (hnd : paths.Nodup) :
    ((group_dicom_files recs header_fields paths).flatMap Prod.snd).Perm paths ∧
    ∀ x ∈ paths,
      (group_dicom_files recs header_fields paths).countP
        (fun g => decide (x ∈ g.2)) = 1 := by
  have hperm := groupFilesLoop_perm
    (fun p q => simpleFieldsMatch header_fields (recs p) (recs q)) paths.length paths le_rfl
  refine ⟨hperm, fun x hx => ?_⟩
  unfold group_dicom_files
  apply countP_one_of_flatMap
  rw [hperm.count_eq x]
  exact List.count_eq_one_of_mem hnd hx

theorem sorted_getD_mono (s : List ℚ) (hs : List.Sorted (· ≤ ·) s) (i j : ℕ)
    (hij : i ≤ j) (hj : j < s.length) : s.getD i 0 ≤ s.getD j 0 := by
  rw [List.getD_eq_getElem s 0 (lt_of_le_of_lt hij hj), List.getD_eq_getElem s 0 hj]
  rcases lt_or_eq_of_le hij with hlt | heq
  · have := @List.Sorted.rel_get_of_lt _ _ _ hs ⟨i, lt_of_le_of_lt hij hj⟩ ⟨j, hj⟩ hlt
    simpa using this
  · subst heq
    exact le_refl _

theorem getD_succ_self_le (s : List ℚ) (hs : List.Sorted (· ≤ ·) s) (i : ℕ) :
    s.getD i 0 ≤ s.getD (i + 1) (s.getD i 0) := by
  by_cases hin : i + 1 < s.length
  · rw [List.getD_eq_getElem s _ hin]
    have h := sorted_getD_mono s hs i (i + 1) (Nat.le_succ i) hin
    rwa [List.getD_eq_getElem s 0 hin] at h
  · rw [List.getD_eq_default s (s.getD i 0) (show s.length ≤ i + 1 by omega)]

theorem interp_mono (s : List ℚ) (hs : List.Sorted (· ≤ ·) s)
    (a b : ℚ) (h0 : 0 ≤ a) (hab : a ≤ b) (hb : b ≤ (s.length : ℚ) - 1) :
    s.getD (⌊a⌋).toNat 0 + (a - ((⌊a⌋ : ℤ) : ℚ)) *
        (s.getD ((⌊a⌋).toNat + 1) (s.getD (⌊a⌋).toNat 0) - s.getD (⌊a⌋).toNat 0) ≤
      s.getD (⌊b⌋).toNat 0 + (b - ((⌊b⌋ : ℤ) : ℚ)) *
        (s.getD ((⌊b⌋).toNat + 1) (s.getD (⌊b⌋).toNat 0) - s.getD (⌊b⌋).toNat 0) := by
  have hfa0 : (0 : ℤ) ≤ ⌊a⌋ := Int.floor_nonneg.mpr h0
  have hfb0 : (0 : ℤ) ≤ ⌊b⌋ := Int.floor_nonneg.mpr (le_trans h0 hab)
  have hfab : ⌊a⌋ ≤ ⌊b⌋ := Int.floor_le_floor hab
  have hm1 : (1 : ℚ) ≤ (s.length : ℚ) := by
    have h1 := le_trans (le_trans h0 hab) hb
    linarith
  have hmN : 1 ≤ s.length := by exact_mod_cast hm1
  have hfb_top : ⌊b⌋ ≤ (s.length : ℤ) - 1 := by
    have hcast : ((s.length : ℤ) - 1 : ℤ) = ⌊(((s.length : ℤ) - 1 : ℤ) : ℚ)⌋ :=
      (Int.floor_intCast _).symm
    have hble : b ≤ (((s.length : ℤ) - 1 : ℤ) : ℚ) := by
      push_cast
      linarith
    have := Int.floor_le_floor hble
    rwa [Int.floor_intCast] at this
  have hib_lt : (⌊b⌋).toNat < s.length := by omega
  have hia_le : (⌊a⌋).toNat ≤ (⌊b⌋).toNat := by omega
  have hfraca0 : 0 ≤ a - ((⌊a⌋ : ℤ) : ℚ) := sub_nonneg.mpr (Int.floor_le a)
  have hfraca1 : a - ((⌊a⌋ : ℤ) : ℚ) ≤ 1 := by
    have := Int.lt_floor_add_one a
    linarith
  have hfracb0 : 0 ≤ b - ((⌊b⌋ : ℤ) : ℚ) := sub_nonneg.mpr (Int.floor_le b)
  have hhia := getD_succ_self_le s hs (⌊a⌋).toNat
  have hhib := getD_succ_self_le s hs (⌊b⌋).toNat
  rcases eq_or_lt_of_le hfab with hfeq | hflt
  · rw [← hfeq]
    have hfrac_ab : a - ((⌊a⌋ : ℤ) : ℚ) ≤ b - ((⌊a⌋ : ℤ) : ℚ) := by linarith
    have hgap : 0 ≤ s.getD ((⌊a⌋).toNat + 1) (s.getD (⌊a⌋).toNat 0) - s.getD (⌊a⌋).toNat 0 :=
      sub_nonneg.mpr hhia
    nlinarith [mul_le_mul_of_nonneg_right hfrac_ab hgap]
  · have hia1_le : (⌊a⌋).toNat + 1 ≤ (⌊b⌋).toNat := by omega
    have hia1_lt : (⌊a⌋).toNat + 1 < s.length := by omega
    have hstep1 : s.getD (⌊a⌋).toNat 0 + (a - ((⌊a⌋ : ℤ) : ℚ)) *
        (s.getD ((⌊a⌋).toNat + 1) (s.getD (⌊a⌋).toNat 0) - s.getD (⌊a⌋).toNat 0) ≤
        s.getD ((⌊a⌋).toNat + 1) (s.getD (⌊a⌋).toNat 0) := by
      have hgap : 0 ≤ s.getD ((⌊a⌋).toNat + 1) (s.getD (⌊a⌋).toNat 0) -
          s.getD (⌊a⌋).toNat 0 := sub_nonneg.mpr hhia
      nlinarith [mul_le_mul_of_nonneg_right hfraca1 hgap]
    have hstep2 : s.getD ((⌊a⌋).toNat + 1) (s.getD (⌊a⌋).toNat 0) ≤
        s.getD (⌊b⌋).toNat 0 := by
      rw [List.getD_eq_getElem s _ hia1_lt]
      have h := sorted_getD_mono s hs ((⌊a⌋).toNat + 1) (⌊b⌋).toNat hia1_le hib_lt
      rwa [List.getD_eq_getElem s 0 hia1_lt] at h
    have hstep3 : s.getD (⌊b⌋).toNat 0 ≤ s.getD (⌊b⌋).toNat 0 +
        (b - ((⌊b⌋ : ℤ) : ℚ)) *
          (s.getD ((⌊b⌋).toNat + 1) (s.getD (⌊b⌋).toNat 0) - s.getD (⌊b⌋).toNat 0) := by
      have hgap : 0 ≤ s.getD ((⌊b⌋).toNat + 1) (s.getD (⌊b⌋).toNat 0) -
          s.getD (⌊b⌋).toNat 0 := sub_nonneg.mpr hhib
      nlinarith
    linarith

theorem percentileOfSorted_mono (s : List ℚ) (hs : List.Sorted (· ≤ ·) s)
    (hne : s ≠ []) (p q : ℚ) (hp : 0 ≤ p) (hpq : p ≤ q) (hq : q ≤ 100) :
    percentileOfSorted s p ≤ percentileOfSorted s q := by
  have hm1 : (1 : ℚ) ≤ (s.length : ℚ) := by
    have := List.length_pos.mpr hne
    exact_mod_cast this
  have hmQ0 : (0 : ℚ) ≤ (s.length : ℚ) - 1 := by linarith
  have ha0 : 0 ≤ ((s.length : ℚ) - 1) * (p / 100) :=
    mul_nonneg hmQ0 (div_nonneg hp (by norm_num))
  have hab : ((s.length : ℚ) - 1) * (p / 100) ≤ ((s.length : ℚ) - 1) * (q / 100) :=
    mul_le_mul_of_nonneg_left (by linarith) hmQ0
  have hbtop : ((s.length : ℚ) - 1) * (q / 100) ≤ (s.length : ℚ) - 1 := by
    have hq1 : q / 100 ≤ 1 := by linarith
    nlinarith
  exact interp_mono s hs _ _ ha0 hab hbtop

theorem np_percentile_mono (xs : List ℚ) (hne : xs ≠ []) (p q : ℚ)
    (hp : 0 ≤ p) (hpq : p ≤ q) (hq : q ≤ 100) :
    np_percentile xs p = .ok (percentileOfSorted (sortedAsc xs) p) ∧
    np_percentile xs q = .ok (percentileOfSorted (sortedAsc xs) q) ∧
    percentileOfSorted (sortedAsc xs) p ≤ percentileOfSorted (sortedAsc xs) q := by
  have hmt : ¬ xs.isEmpty = true := by simpa using hne
  refine ⟨by simp [np_percentile, hmt], by simp [np_percentile, hmt], ?_⟩
  apply percentileOfSorted_mono _ _ _ p q hp hpq hq
  · exact List.sorted_mergeSort' xs
  · intro hnil
    apply hne
    have := List.mergeSort_perm xs (fun a b => decide (a ≤ b))
    rw [show sortedAsc xs = xs.mergeSort (fun a b => decide (a ≤ b)) from rfl] at hnil
    rw [hnil] at this
    exact this.symm.eq_nil

/-- C6 (confirmed): percentile-threshold monotonicity.  For a fixed distance
matrix with at least one considered upper-triangle entry and a fixed
diagonal offset k, increasing the percentile parameter never decreases the
number of 1-entries of the thresholded matrix (entries outside the
considered triangle are 0 by construction of `dist_percentile_threshold`). -/
theorem dist_percentile_threshold_monotone (n : ℕ) (k : ℤ) (M : ℕ → ℕ → ℚ) (p q : ℚ)
    (hne : triuEntries n k M ≠ []) (hp : 0 ≤ p) (hpq : p ≤ q) (hq : q ≤ 100) :
    ∃ Tp Tq, dist_percentile_threshold n M p k = .ok Tp ∧
      dist_percentile_threshold n M q k = .ok Tq ∧
      onesCount n Tp ≤ onesCount n Tq := by
  obtain ⟨hok1, hok2, hle⟩ := np_percentile_mono (triuEntries n k M) hne p q hp hpq hq
  refine ⟨fun i j =>
      if i < n ∧ j < n ∧ k ≤ (j : ℤ) - (i : ℤ) ∧
        M i j < percentileOfSorted (sortedAsc (triuEntries n k M)) p then 1 else 0,
    fun i j =>
      if i < n ∧ j < n ∧ k ≤ (j : ℤ) - (i : ℤ) ∧
        M i j < percentileOfSorted (sortedAsc (triuEntries n k M)) q then 1 else 0,
    ?_, ?_, ?_⟩
  · unfold dist_percentile_threshold
    rw [hok1]
  · unfold dist_percentile_threshold
    rw [hok2]
  · apply List.countP_mono_left
    intro ij hmem h1
    simp only [decide_eq_true_eq] at h1 ⊢
    split at h1
    · rename_i hcond
      obtain ⟨hin, hjn, hk, hlt⟩ := hcond
      rw [if_pos ⟨hin, hjn, hk, lt_of_lt_of_le hlt hle⟩]
    · exact absurd h1 (by norm_num)

/-- C7 (corrected): for N <= 1 the matrix computation does not raise and
returns the zero matrix, but the percentile thresholding raises (IndexError
from `np.percentile` on an empty selection) whenever the considered triangle
at offset k is empty — in particular for N <= 1 with the default k = 1. -/
theorem calc_distances_and_threshold_empty (simil : String → String → ℚ) (fw : Weights)
    (files : List DicomFile) (n : ℕ) (M : ℕ → ℕ → ℚ) (p : ℚ) (k : ℤ)
    (hfiles : files.length ≤ 1) (hk : triuPairs n k = []) :
    calculate_file_distances simil fw files = .ok (fun _ _ => 0) ∧
    dist_percentile_threshold n M p k = .error () := by
  constructor
  · rcases files with _ | ⟨r, rest⟩
    · rfl
    · have hlen0 : rest.length = 0 := by
        simp only [List.length_cons] at hfiles
        omega
      have hnil : rest = [] := List.eq_nil_of_length_eq_zero hlen0
      subst hnil
      rfl
  · unfold dist_percentile_threshold np_percentile triuEntries
    rw [hk]
    rfl
/-- C5 (confirmed): the exact-match measure.  With both records loaded it
returns False as soon as some configured field's stringified value differs
(a missing field standing in as the empty string), True when every field
matches, and whenever either record is unset it returns the incomparable
sentinel (`np.inf`); being a total function of its inputs it never raises in
that case. -/
theorem simpleTransform_correct (fns : List String) (r1 r2 : DicomFile) :
    ((∃ f ∈ fns, getattrD r1 f "" ≠ getattrD r2 f "") →
      simpleTransform fns (some r1) (some r2) = .result false) ∧
    ((∀ f ∈ fns, getattrD r1 f "" = getattrD r2 f "") →
      simpleTransform fns (some r1) (some r2) = .result true) ∧
    (∀ d1 d2 : Option DicomFile, (d1 = none ∨ d2 = none) →
      simpleTransform fns d1 d2 = .incomparable) := by
  refine ⟨?_, ?_, ?_⟩
  · rintro ⟨f, hf, hne⟩
    simp only [simpleTransform, SimpleResult.result.injEq, simpleFieldsMatch]
    rw [List.all_eq_false]
    exact ⟨f, hf, by simpa using hne⟩
  · intro h
    simp only [simpleTransform, SimpleResult.result.injEq, simpleFieldsMatch]
    rw [List.all_eq_true]
    intro f hf
    simpa using h f hf
  · rintro d1 d2 (rfl | rfl)
    · rfl
    · cases d1 <;> rfl

/-- C8 (corrected): an out-of-range index makes `merge_groups` fail with an
IndexError, but the error carries only the fixed message «Index out of range
to merge DICOM groups.»; it does not name the offending index or the valid
range (see the counterexample, whose message contains no digit at all). -/
theorem merge_groups_error_generic {K V : Type} [DecidableEq K] (g : List (K × List V))
    (targets sources : List ℕ) (i : ℕ) (hi : i ∈ targets ++ sources)
    (hout : g.length ≤ i) :
    merge_groups g targets sources = .error "Index out of range to merge DICOM groups." := by
  have hall : ((targets ++ sources).all (fun i => decide (i < g.length))) = false := by
    rw [List.all_eq_false]
    exact ⟨i, hi, by simpa using hout⟩
  simp [merge_groups, merge_dict_of_lists, hall]

theorem addToGroupVal_keys (acc : List (String × List String)) (v : String)
    (h : ∀ kv ∈ acc, kv.1 = "") :
    ∀ kv ∈ addToGroupVal acc "" v, kv.1 = "" := by
  intro kv hkv
  unfold addToGroupVal at hkv
  split at hkv
  · obtain ⟨kv0, hkv0, heq⟩ := List.mem_map.mp hkv
    by_cases hk : kv0.1 = ""
    · simp only [if_pos hk] at heq
      rw [← heq]
      exact hk
    · exact absurd (h kv0 hkv0) hk
  · rcases List.mem_append.mp hkv with hmem | hmem
    · exact h kv hmem
    · simp only [List.mem_singleton] at hmem
      rw [hmem]

/-- C9 (corrected): a missing key field does not make
`get_unique_field_values_per_group` fail.  `get_attributes` returns the
default empty string for an absent attribute, so when the key field is
absent on every group representative the call succeeds and collects all
values under the key ''; the KeyError branch that would name the field and
the representative path is unreachable. -/
theorem unique_values_missing_key (recs : String → DicomFile)
    (groups : List (String × List String)) (fn kf : String)
    (h : ∀ g ∈ groups, (recs g.1).fields kf = none) :
    ∀ kv ∈ get_unique_field_values_per_group recs groups fn (some kf), kv.1 = "" := by
  unfold get_unique_field_values_per_group
  suffices hgen : ∀ (gs : List (String × List String)) (acc : List (String × List String)),
      (∀ g ∈ gs, (recs g.1).fields kf = none) → (∀ kv ∈ acc, kv.1 = "") →
      ∀ kv ∈ gs.foldl (fun acc g =>
        g.2.foldl (fun acc2 f =>
          addToGroupVal acc2 (get_attributes (recs g.1) kf "")
            (get_attributes (recs f) fn "")) acc) acc, kv.1 = "" by
    intro kv hkv
    exact hgen groups [] h (by intro kv h0; cases h0) kv hkv
  intro gs
  induction gs with
  | nil => intro acc _ hacc kv hkv; exact hacc kv hkv
  | cons g rest ih =>
    intro acc hgs hacc kv hkv
    simp only [List.foldl_cons] at hkv
    refine ih _ (fun g' hg' => hgs g' (List.mem_cons_of_mem _ hg')) ?_ kv hkv
    have hkey : get_attributes (recs g.1) kf "" = "" := by
      unfold get_attributes
      rw [hgs g (List.mem_cons_self g rest)]
      rfl
    clear hkv
    rw [hkey]
    induction g.2 generalizing acc with
    | nil => exact hacc
    | cons f fs ihf =>
      intro kv2 hkv2
      simp only [List.foldl_cons] at hkv2
      exact ihf _ (addToGroupVal_keys acc (get_attributes (recs f) fn "") hacc) kv2 hkv2

/-- C2 (code bug): with weights on fields A and B, a record on which reading
A raises `AttributeError` and another on which both fields read fine, the
transform does not drop A and average over B as the specification describes;
popping A from the dictionary being iterated makes the next loop iteration
raise `RuntimeError («dictionary changed size during iteration»)`, so no
distance is returned at all. -/
theorem levTransform_missing_field_raises :
    levTransform (fun _ _ => 1/2) c2fw (some c2rec1) (some c2rec2) =
      .error .runtimeError ∧
    c2rec1.fields "A" = none ∧ c2rec1.fields "B" = some "b1" ∧
    c2rec2.fields "A" = some "a2" ∧ c2rec2.fields "B" = some "b2" := by
  refine ⟨by rfl, by rfl, by rfl, by rfl, by rfl⟩

/-- C3 counterexample: an input inside the claim's scope — a valid non-empty
weight mapping and at least one usable field (B is readable on both
records) — on which the transform does not return any value d at all: it
raises RuntimeError because field A is unreadable on the first record. -/
theorem levTransform_bounds_counterexample :
    levTransform (fun _ _ => 0) c3fw (some c2rec1) (some c2rec2) =
      .error .runtimeError ∧
    c2rec1.fields "B" ≠ none ∧ c2rec2.fields "B" ≠ none := by
  refine ⟨by rfl, by simp [c2rec1], by simp [c2rec2]⟩

/-- C4 counterexample: weight mapping {A: 0} and records where A reads as
the empty string on both sides.  The sum of the remaining weights is zero
throughout the loop, yet the transform returns 0, not 1: the zero-sum check
sits after the empty-string skip and is never reached. -/
theorem levTransform_zero_sum_counterexample :
    levTransform (fun _ _ => 1) c4fw (some c4rec) (some c4rec) = .ok (.val 0) ∧
      (c4fw.map Prod.snd).sum = 0 := by
  constructor
  · rfl
  · simp [c4fw]

/-- C7 counterexample: for a 1x1 matrix with the default diagonal offset
k = 1 the considered triangle is empty and the thresholding raises
(IndexError from `np.percentile` of an empty selection) instead of returning
a trivial result; perc_thr is the source default 0.05. -/
theorem dist_percentile_threshold_empty_counterexample :
    dist_percentile_threshold 1 (fun _ _ => 0) (1/20) 1 = .error () := by rfl

/-- C8 counterexample: merging with target index 5 into a store of two
groups fails with the fixed message «Index out of range to merge DICOM
groups.», which contains no digit: neither the offending index 5 nor the
valid range 0..1 is named. -/
theorem merge_groups_counterexample :
    merge_groups [("a", ["a"]), ("b", ["b"])] [5] [0] =
        .error "Index out of range to merge DICOM groups." ∧
      ("Index out of range to merge DICOM groups.".toList.all
        (fun c => !c.isDigit)) = true := by
  constructor
  · rfl
  · rfl

/-- C9 counterexample: the key field KF is absent on the group
representative, yet the call succeeds — returning the group's values under
the key '' — instead of failing with a missing-field error. -/
theorem unique_values_counterexample :
    get_unique_field_values_per_group (fun _ => c9rec) [("p1", ["p1"])] "F"
        (some "KF") = [("", ["v"])] ∧ c9rec.fields "KF" = none := by
  constructor
  · rfl
  · rfl

/-- Witness for C1 at a concrete input: three distinct paths, grouped on the
PatientID field. -/
theorem group_dicom_files_partition_witness :
    ((group_dicom_files cRecs ["PatientID"] ["a", "b", "c"]).flatMap Prod.snd).Perm
        ["a", "b", "c"] ∧
    ∀ x ∈ ["a", "b", "c"],
      (group_dicom_files cRecs ["PatientID"] ["a", "b", "c"]).countP
        (fun g => decide (x ∈ g.2)) = 1 :=
  group_dicom_files_partition cRecs ["PatientID"] ["a", "b", "c"] (by decide)

/-- Witness for C3 at a concrete input: weight mapping {A: 1}, both records
readable on A. -/
theorem levTransform_bounds_witness :
    ∃ d, levTransform (fun _ _ => 0) [("A", 1)] (some c2rec2) (some c2rec2) =
        .ok (.val d) ∧ 0 ≤ d ∧ d ≤ 1 :=
  levTransform_bounds (fun _ _ => 0) [("A", 1)] c2rec2 c2rec2
    (by simp)
    (by simp)
    (by
      intro kv hkv
      simp only [List.mem_singleton] at hkv
      rw [hkv]
      norm_num)
    (by
      intro a b
      norm_num)
    (by
      intro f hf
      simp only [List.map_cons, List.map_nil, List.mem_singleton] at hf
      subst hf
      constructor <;> simp [c2rec2])

/-- Witness for C4 at a concrete input: weight mapping {A: 0}, records with
A reading as the nonempty string x on both sides. -/
theorem levTransform_zero_weight_sum_witness :
    levTransform (fun _ _ => 0) [("A", 0)] (some c4brec) (some c4brec) =
      .ok (.val 1) :=
  levTransform_zero_weight_sum (fun _ _ => 0) [("A", 0)] c4brec c4brec
    (by simp)
    (by simp)
    (by
      intro f hf
      simp only [List.map_cons, List.map_nil, List.mem_singleton] at hf
      subst hf
      constructor <;> simp [c4brec])
    ⟨"A", by simp, by simp [c4brec], by simp [c4brec]⟩

/-- Witness for C5 at a concrete input: two loaded records that differ on
the PatientID field. -/
theorem simpleTransform_correct_witness :
    simpleTransform ["PatientID"] (some c5rec1) (some c5rec2) = .result false :=
  (simpleTransform_correct ["PatientID"] c5rec1 c5rec2).1
    ⟨"PatientID", by simp, by simp [getattrD, c5rec1, c5rec2]⟩

/-- Witness for C6 at a concrete input: a 2x2 zero matrix, offset k = 1 (one
considered entry), percentiles 0 and 100. -/
theorem dist_percentile_threshold_monotone_witness :
    ∃ Tp Tq, dist_percentile_threshold 2 (fun _ _ => 0) 0 1 = .ok Tp ∧
      dist_percentile_threshold 2 (fun _ _ => 0) 100 1 = .ok Tq ∧
      onesCount 2 Tp ≤ onesCount 2 Tq :=
  dist_percentile_threshold_monotone 2 1 (fun _ _ => 0) 0 100
    (by decide) (by norm_num) (by norm_num) (by norm_num)

/-- Witness for C7 at a concrete input: an empty file list and a 0x0 matrix
with offset k = 1. -/
theorem calc_distances_and_threshold_empty_witness :
    calculate_file_distances (fun _ _ => 0) [] [] = .ok (fun _ _ => 0) ∧
    dist_percentile_threshold 0 (fun _ _ => 0) 0 1 = .error () :=
  calc_distances_and_threshold_empty (fun _ _ => 0) [] [] 0 (fun _ _ => 0) 0 1
    (by simp) (by rfl)

/-- Witness for C8 at a concrete input: target index 3 into a one-group
store. -/
theorem merge_groups_error_generic_witness :
    merge_groups [("a", ["a"])] [3] ([] : List ℕ) =
      .error "Index out of range to merge DICOM groups." :=
  merge_groups_error_generic [("a", ["a"])] [3] [] 3 (by simp) (by norm_num)

/-- Witness for C9 at a concrete input: one group whose representative lacks
the key field KF. -/
theorem unique_values_missing_key_witness :
    ((get_unique_field_values_per_group (fun _ => c9rec) [("p1", ["p1"])] "F"
        (some "KF")).all (fun kv => kv.1 == "")) = true := by
  rw [List.all_eq_true]
  intro kv hkv
  simpa using unique_values_missing_key (fun _ => c9rec) [("p1", ["p1"])] "F" "KF"
    (by
      intro g hg
      simp only [List.mem_singleton] at hg
      subst hg
      rfl) kv hkv

/-- Witness for C10 at a concrete input: weights on A and B, each field
empty on one side and nonempty (and differing) on the other. -/
theorem levTransform_all_empty_values_witness :
    levTransform (fun _ _ => 0) c2fw (some c10rec1) (some c10rec2) =
      .ok (.val 0) :=
  levTransform_all_empty_values (fun _ _ => 0) c2fw c10rec1 c10rec2
    (by simp [c2fw])
    (by
      intro f hf
      simp only [c2fw, List.map_cons, List.map_nil, List.mem_cons,
        List.mem_singleton] at hf
      rcases hf with rfl | hf
      · exact ⟨"", "aa", by rfl, by rfl, Or.inl rfl⟩
      · rcases hf with rfl | hf
        · exact ⟨"bb", "", by rfl, by rfl, Or.inr rfl⟩
        · cases hf)

end Boyle
